import Mathlib

/-!
Verification of the `modal-logic` propositional/modal formula parser and
evaluator (`src/lib.rs`), as a shallow embedding in Lean 4.

Strings are modelled as `List Char`.  Rust panics (`unwrap` on `None`,
`panic!`) are modelled as `Except` error values whose constructors record
the panic site.  The Rust `HashMap<char, char>` atom map is modelled as a
function `Char → Option Char` (`insert` shadows, `get` looks up), which is
observationally the behaviour the code uses.
-/

namespace ModalLogic

/-- The Rust `char::is_whitespace` predicate (Unicode `White_Space`):
U+0009–U+000D, U+0020, U+0085, U+00A0, U+1680, U+2000–U+200A, U+2028,
U+2029, U+202F, U+205F, U+3000. -/
def rustIsWhitespace (c : Char) : Bool :=
  decide ((9 ≤ c.toNat ∧ c.toNat ≤ 13) ∨ c.toNat = 32 ∨ c.toNat = 133 ∨
    c.toNat = 160 ∨ c.toNat = 0x1680 ∨ (0x2000 ≤ c.toNat ∧ c.toNat ≤ 0x200A) ∨
    c.toNat = 0x2028 ∨ c.toNat = 0x2029 ∨ c.toNat = 0x202F ∨ c.toNat = 0x205F ∨
    c.toNat = 0x3000)

/-- Model of `s.retain(|c| !c.is_whitespace())` from lines 57–58 and 73–74 of
`src/lib.rs`. -/
def stripWhitespace (s : List Char) : List Char :=
  s.filter (fun c => !(rustIsWhitespace c))

/-- Rust `str::split(sep)` semantics on character lists: splitting the empty
string yields one empty segment; every separator starts a new segment. -/
def splitOnChar (sep : Char) : List Char → List (List Char)
  | [] => [[]]
  | c :: cs =>
    let rest := splitOnChar sep cs
    if c = sep then
      [] :: rest
    else
      match rest with
      | [] => [[c]]
      | seg :: segs => (c :: seg) :: segs

/-- The `Atom` enum of `src/lib.rs` (lines 39–43). -/
inductive Atom where
  | True : Atom
  | False : Atom
deriving DecidableEq, Repr

mutual
/-- The `Proposition` enum of `src/lib.rs` (lines 32–37). -/
inductive Proposition where
  | Atom : Atom → Proposition
  | Connective : Connective → Proposition
  | Parenthesised : Proposition → Proposition

/-- The `Connective` enum of `src/lib.rs` (lines 45–54). -/
inductive Connective where
  | And : Proposition → Proposition → Connective
  | Or : Proposition → Proposition → Connective
  | IfThen : Proposition → Proposition → Connective
  | Iff : Proposition → Proposition → Connective
  | Not : Proposition → Connective
  | Possibly : Proposition → Connective
  | Necessarily : Proposition → Connective
end

/-- Model of `evaluate` from `src/lib.rs` lines 9–30, a structural fold. -/
def evaluate : Proposition → Bool
  | .Atom .True => true
  | .Atom .False => false
  | .Connective (.And left right) => evaluate left && evaluate right
  | .Connective (.Or left right) => evaluate left || evaluate right
  | .Connective (.IfThen left right) => !evaluate left || evaluate right
  | .Connective (.Iff left right) => evaluate left == evaluate right
  | .Connective (.Not p) => !evaluate p
  | .Connective (.Possibly p) => evaluate p
  | .Connective (.Necessarily p) => evaluate p
  | .Parenthesised p => evaluate p

/-- The `HashMap<char, char>` atom map, modelled extensionally. -/
def AtomMap : Type := Char → Option Char

/-- Model of `HashMap::new()`. -/
def AtomMap.empty : AtomMap := fun _ => none

/-- Model of `HashMap::insert` (later inserts shadow earlier ones). -/
def AtomMap.insert (m : AtomMap) (k v : Char) : AtomMap :=
  fun c => if c = k then some v else m c

/-- Model of `HashMap::get`. -/
def AtomMap.get (m : AtomMap) (c : Char) : Option Char := m c

/-- Where the Rust code aborts, the embedding returns one of these error
values recording the panic site:
* `unwrapNone` — any `.unwrap()` on a `None` value (missing `;` segment,
  malformed assignment pair, unknown atom at line 81, empty accumulator at
  a binary connective or at end of input, line 141);
* `invalidAtomValue` — `panic!("Invalid atom value")`, line 85;
* `invalidCharacter` — `panic!("Invalid character")`, line 136;
* `outOfFuel` — an artifact of the fuelled recursion in the embedding,
  never returned when the fuel bound exceeds the input length. -/
inductive Err where
  | unwrapNone : Err
  | invalidAtomValue : Err
  | invalidCharacter : Err
  | outOfFuel : Err
deriving DecidableEq, Repr

/-- The scan of lines 118–131 of `src/lib.rs`: on `(`, walk the remaining
characters keeping a nesting counter that starts at 1; characters are
accumulated until the counter reaches 0; the matching `)` is consumed but
not accumulated.  Returns the accumulated group and the remaining
characters; if the counter never reaches 0 the whole remainder is the group
and nothing is left. -/
def scanParen : List Char → Nat → List Char → List Char × List Char
  | [], _, acc => (acc.reverse, [])
  | c :: cs, n, acc =>
    let n2 := if c = '(' then n + 1 else if c = ')' then n - 1 else n
    if n2 = 0 then (acc.reverse, cs)
    else scanParen cs n2 (c :: acc)

/-- Holds when the nesting counter of the scan at lines 118–131 of
`src/lib.rs`, started at `n`, never returns to zero before the end of the
input — the condition under which an opening parenthesis is never
matched. -/
def parenNeverCloses : List Char → Nat → Bool
  | [], _ => true
  | c :: cs, n =>
    let n2 := if c = '(' then n + 1 else if c = ')' then n - 1 else n
    if n2 = 0 then false else parenNeverCloses cs n2

/-- The scanning loop of `parse_proposition` (`src/lib.rs` lines 75–141),
with the character cursor as the list argument and `current_prop` as the
`Option Proposition` accumulator.  Recursive calls back into
`parse_proposition` (which first strips whitespace) appear as calls on
`stripWhitespace` of the remainder.  The `Nat` fuel argument only makes the
recursion structural; it is never exhausted when it exceeds the input
length. -/
def parseGoF (m : AtomMap) : Nat → List Char → Option Proposition → Except Err Proposition
  | _, [], cur =>
    match cur with
    | some p => .ok p
    | none => .error .unwrapNone
  | 0, _ :: _, _ => .error .outOfFuel
  | fuel + 1, c :: cs, cur =>
    match c with
    | 'P' | 'Q' | 'R' | 'S' | 'T' =>
      match AtomMap.get m c with
      | none => .error .unwrapNone
      | some v =>
        match v with
        | 'T' => parseGoF m fuel cs (some (.Atom .True))
        | 'F' => parseGoF m fuel cs (some (.Atom .False))
        | _ => .error .invalidAtomValue
    | '∧' =>
      match cur with
      | none => .error .unwrapNone
      | some left =>
        match parseGoF m fuel (stripWhitespace cs) none with
        | .ok right => .ok (.Connective (.And left right))
        | .error e => .error e
    | '∨' =>
      match cur with
      | none => .error .unwrapNone
      | some left =>
        match parseGoF m fuel (stripWhitespace cs) none with
        | .ok right => .ok (.Connective (.Or left right))
        | .error e => .error e
    | '→' =>
      match cur with
      | none => .error .unwrapNone
      | some left =>
        match parseGoF m fuel (stripWhitespace cs) none with
        | .ok right => .ok (.Connective (.IfThen left right))
        | .error e => .error e
    | '↔' =>
      match cur with
      | none => .error .unwrapNone
      | some left =>
        match parseGoF m fuel (stripWhitespace cs) none with
        | .ok right => .ok (.Connective (.Iff left right))
        | .error e => .error e
    | '¬' =>
      match parseGoF m fuel (stripWhitespace cs) none with
      | .ok operand => .ok (.Connective (.Not operand))
      | .error e => .error e
    | '(' =>
      match scanParen cs 1 [] with
      | (group, rest) =>
        match parseGoF m fuel (stripWhitespace group) none with
        | .ok inner => parseGoF m fuel rest (some (.Parenthesised inner))
        | .error e => .error e
    | _ => .error .invalidCharacter

/-- Model of `parse_proposition` from `src/lib.rs` lines 72–142: strip whitespace,
then run the scanning loop with an empty accumulator.  The fuel equals the
stripped input's length, which the sub-calls never exceed. -/
def parse_proposition (prop : List Char) (m : AtomMap) : Except Err Proposition :=
  parseGoF m (stripWhitespace prop).length (stripWhitespace prop) none

/-- The atom-map-building loop of `parse_proposition_string` (`src/lib.rs`
lines 63–68): each `,`-separated segment is split on `=`; the first
character of the part before the `=` maps to the first character of the
part after it.  A segment with no `=`, or with an empty side, panics
(`unwrapNone`). -/
def buildAtomMap : List (List Char) → AtomMap → Except Err AtomMap
  | [], m => .ok m
  | seg :: rest, m =>
    match splitOnChar '=' seg with
    | name :: value :: _ =>
      match name.head?, value.head? with
      | some nameChar, some valueChar => buildAtomMap rest (m.insert nameChar valueChar)
      | _, _ => .error .unwrapNone
    | _ => .error .unwrapNone

/-- Model of `parse_proposition_string` from `src/lib.rs` lines 56–70: strip all
whitespace, split on `;` (formula before, assignments after; a missing `;`
panics), build the atom map from the `,`-separated assignment list, parse
the formula. -/
def parse_proposition_string (s : List Char) : Except Err Proposition :=
  match splitOnChar ';' (stripWhitespace s) with
  | propText :: atomsText :: _ =>
    match buildAtomMap (splitOnChar ',' atomsText) AtomMap.empty with
    | .ok m => parse_proposition propText m
    | .error e => .error e
  | _ => .error .unwrapNone

/-- Model of `evaluate_propositional_string` from `src/lib.rs` lines 3–6. -/
def evaluate_propositional_string (s : List Char) : Except Err Bool :=
  match parse_proposition_string s with
  | .ok p => .ok (evaluate p)
  | .error e => .error e

/-- The atom identifier characters recognised at line 80 of `src/lib.rs`. -/
def atomChars : List Char := ['P', 'Q', 'R', 'S', 'T']

/-- The binary connective characters of lines 89–112 of `src/lib.rs`. -/
def binChars : List Char := ['∧', '∨', '→', '↔']

/-- The truth token a boolean stands for in an assignment list. -/
def tok (b : Bool) : Char := if b then 'T' else 'F'

/-- The leaf `Proposition` a boolean parses to. -/
def ofBool (b : Bool) : Proposition :=
  .Atom (if b then .True else .False)

/-- The AST node a binary connective character builds (lines 89–112). -/
def mkBin (o : Char) (l r : Proposition) : Proposition :=
  if o = '∧' then .Connective (.And l r)
  else if o = '∨' then .Connective (.Or l r)
  else if o = '→' then .Connective (.IfThen l r)
  else .Connective (.Iff l r)

/-- A concrete atom map binding `P ↦ T`, `Q ↦ F`, used in concrete
instances below. -/
def mapPQ : AtomMap :=
  fun c => if c = 'P' then some 'T' else if c = 'Q' then some 'F' else none

/-- Returns `true` when the computation ended in a modelled panic. -/
def isFailure : Except Err Proposition → Bool
  | .error _ => true
  | .ok _ => false

/-- The atom identifier an assignment segment binds: the first character
before its `=` (`none` when the segment has no `=` or an empty left side),
as read by the loop at lines 63–68 of `src/lib.rs`. -/
def segAtomName (seg : List Char) : Option Char :=
  match splitOnChar '=' seg with
  | n :: _ :: _ => n.head?
  | _ => none

/-- The truth token an assignment segment binds: the first character after
its `=` (`none` when the segment has no `=` or an empty right side). -/
def segAtomValue (seg : List Char) : Option Char :=
  match splitOnChar '=' seg with
  | _ :: v :: _ => v.head?
  | _ => none

lemma parseGoF_nil_some (m : AtomMap) (fuel : Nat) (p : Proposition) :
    parseGoF m fuel [] (some p) = .ok p := by
  cases fuel <;> rfl

lemma isFailure_iff (x : Except Err Proposition) :
    isFailure x = true ↔ ∃ e, x = .error e := by
  cases x <;> simp [isFailure]

lemma atom_not_ws {a : Char} (ha : a ∈ atomChars) : rustIsWhitespace a = false := by
  simp only [atomChars, List.mem_cons, List.not_mem_nil, or_false] at ha
  rcases ha with h | h | h | h | h <;> subst h <;> decide

lemma bin_not_ws {o : Char} (ho : o ∈ binChars) : rustIsWhitespace o = false := by
  simp only [binChars, List.mem_cons, List.not_mem_nil, or_false] at ho
  rcases ho with h | h | h | h <;> subst h <;> decide

lemma strip_idem (s : List Char) :
    stripWhitespace (stripWhitespace s) = stripWhitespace s := by
  simp [stripWhitespace, List.filter_filter]

lemma strip_length_le (s : List Char) :
    (stripWhitespace s).length ≤ s.length :=
  List.length_filter_le _ s

lemma strip_cons_of_not_ws {c : Char} (h : rustIsWhitespace c = false) (s : List Char) :
    stripWhitespace (c :: s) = c :: stripWhitespace s := by
  simp [stripWhitespace, List.filter_cons, h]

lemma mem_strip_of_mem {c : Char} {s : List Char} (hc : c ∈ s)
    (hw : rustIsWhitespace c = false) : c ∈ stripWhitespace s := by
  simp [stripWhitespace, List.mem_filter, hc, hw]

/-- Scanning an atom character sets the accumulator to the corresponding
leaf, replacing whatever the accumulator held, and continues. -/
lemma atom_step {a : Char} {m : AtomMap} {v : Bool}
    (ha : a ∈ atomChars) (hma : AtomMap.get m a = some (tok v)) :
    ∀ (n : Nat) (cs : List Char) (cur : Option Proposition),
    parseGoF m (n + 1) (a :: cs) cur = parseGoF m n cs (some (ofBool v)) := by
  intro n cs cur
  simp only [atomChars, List.mem_cons, List.not_mem_nil, or_false] at ha
  rcases ha with h | h | h | h | h <;> subst h <;> cases v <;>
    simp only [tok, if_true, if_false, Bool.false_eq_true] at hma <;>
    simp [parseGoF, hma, ofBool]

/-- Scanning a binary connective with a pending left operand hands the
whole remainder to a recursive parse as the right operand. -/
lemma bin_step {o : Char} (ho : o ∈ binChars) (m : AtomMap) (n : Nat)
    (cs : List Char) (l : Proposition) :
    parseGoF m (n + 1) (o :: cs) (some l) =
      match parseGoF m n (stripWhitespace cs) none with
      | .ok r => .ok (mkBin o l r)
      | .error e => .error e := by
  simp only [binChars, List.mem_cons, List.not_mem_nil, or_false] at ho
  rcases ho with h | h | h | h <;> subst h <;> simp [parseGoF, mkBin]

lemma scanParen_never_closes : ∀ {cs : List Char} {n : Nat},
    parenNeverCloses cs n = true →
    ∀ acc, scanParen cs n acc = (acc.reverse ++ cs, []) := by
  intro cs
  induction cs with
  | nil => intro n _ acc; simp [scanParen]
  | cons c cs ih =>
    intro n h acc
    unfold parenNeverCloses at h
    simp only [] at h
    by_cases h0 : (if c = '(' then n + 1 else if c = ')' then n - 1 else n) = 0
    · rw [if_pos h0] at h
      cases h
    · rw [if_neg h0] at h
      simp only [scanParen, h0, if_false]
      rw [ih h (c :: acc)]
      simp

lemma scanParen_len : ∀ (cs : List Char) (n : Nat) (acc : List Char),
    (scanParen cs n acc).1.length ≤ acc.length + cs.length ∧
    (scanParen cs n acc).2.length ≤ cs.length := by
  intro cs
  induction cs with
  | nil => intro n acc; simp [scanParen]
  | cons c cs ih =>
    intro n acc
    simp only [scanParen]
    by_cases h0 : (if c = '(' then n + 1 else if c = ')' then n - 1 else n) = 0
    · simp only [h0, if_true]
      constructor
      · simp
      · simp
    · simp only [h0, if_false]
      have := ih (if c = '(' then n + 1 else if c = ')' then n - 1 else n) (c :: acc)
      constructor
      · calc (scanParen cs _ (c :: acc)).1.length ≤ (c :: acc).length + cs.length := this.1
          _ ≤ acc.length + (c :: cs).length := by simp; omega
      · calc (scanParen cs _ (c :: acc)).2.length ≤ cs.length := this.2
          _ ≤ (c :: cs).length := by simp

lemma scanParen_mem_acc {x : Char} : ∀ (cs : List Char) (n : Nat) (acc : List Char),
    x ∈ acc → x ∈ (scanParen cs n acc).1 := by
  intro cs
  induction cs with
  | nil => intro n acc hx; simpa [scanParen] using hx
  | cons c cs ih =>
    intro n acc hx
    simp only [scanParen]
    by_cases h0 : (if c = '(' then n + 1 else if c = ')' then n - 1 else n) = 0
    · simpa [h0] using hx
    · simp only [h0, if_false]
      exact ih _ (c :: acc) (List.mem_cons_of_mem c hx)

lemma scanParen_mem {x : Char} (hxc : x ≠ ')') :
    ∀ (cs : List Char) (n : Nat) (acc : List Char), 0 < n → x ∈ cs →
    x ∈ (scanParen cs n acc).1 ∨ x ∈ (scanParen cs n acc).2 := by
  intro cs
  induction cs with
  | nil => intro n acc _ hx; cases hx
  | cons c cs ih =>
    intro n acc hn hx
    simp only [scanParen]
    by_cases h0 : (if c = '(' then n + 1 else if c = ')' then n - 1 else n) = 0
    · -- the counter only reaches zero on a closing parenthesis
      have hcc : c = ')' := by
        by_cases h1 : c = '('
        · simp [h1] at h0
        · by_cases h2 : c = ')'
          · exact h2
          · simp [h1, h2] at h0; omega
      have hxcs : x ∈ cs := by
        rcases List.mem_cons.mp hx with h | h
        · exact absurd (h.trans hcc) hxc
        · exact h
      simp only [h0, if_true]
      right; exact hxcs
    · simp only [h0, if_false]
      have hn2 : 0 < (if c = '(' then n + 1 else if c = ')' then n - 1 else n) :=
        Nat.pos_of_ne_zero h0
      rcases List.mem_cons.mp hx with h | h
      · subst h
        left
        exact scanParen_mem_acc cs _ (x :: acc) (List.mem_cons_self x acc)
      · exact ih _ (c :: acc) hn2 h

/-- Characters recognised as atoms are none of the operator characters. -/
lemma atom_ne_ops {c : Char} (hc : c ∈ atomChars) :
    c ≠ '∧' ∧ c ≠ '∨' ∧ c ≠ '→' ∧ c ≠ '↔' ∧ c ≠ '¬' ∧ c ≠ '(' ∧ c ≠ ')' := by
  simp only [atomChars, List.mem_cons, List.not_mem_nil, or_false] at hc
  rcases hc with h | h | h | h | h <;> subst h <;> refine ⟨?_, ?_, ?_, ?_, ?_, ?_, ?_⟩ <;> decide

/-- If the input mentions an atom character that the atom map does not bind,
the scan can never return a proposition: some modelled panic occurs first
(possibly the unknown-atom `unwrap` itself). -/
lemma unbound_atom_failure {m : AtomMap} {c : Char}
    (hatom : c ∈ atomChars) (hnone : AtomMap.get m c = none) :
    ∀ (fuel : Nat) (input : List Char) (cur : Option Proposition),
    input.length ≤ fuel → c ∈ input →
    isFailure (parseGoF m fuel input cur) = true := by
  intro fuel
  induction fuel with
  | zero =>
    intro input cur hlen hc
    have : input = [] := List.length_eq_zero.mp (Nat.le_zero.mp hlen)
    subst this; cases hc
  | succ f ih =>
    intro input cur hlen hc
    obtain ⟨c0, cs, rfl⟩ : ∃ c0 cs, input = c0 :: cs := by
      cases input with
      | nil => cases hc
      | cons a l => exact ⟨a, l, rfl⟩
    have hlcs : cs.length ≤ f := by simpa using hlen
    obtain ⟨hne1, hne2, hne3, hne4, hne5, hne6, hne7⟩ := atom_ne_ops hatom
    have hwc : rustIsWhitespace c = false := atom_not_ws hatom
    have hlstrip : (stripWhitespace cs).length ≤ f :=
      le_trans (strip_length_le cs) hlcs
    simp only [parseGoF]
    split
    -- five atom-character alternatives
    all_goals try {
      rcases List.mem_cons.mp hc with hh | hh
      · rw [← hh, hnone]; rfl
      · split
        · rfl
        · split
          · exact ih cs _ hlcs hh
          · exact ih cs _ hlcs hh
          · rfl }
    -- four binary-connective alternatives and negation: the scan recurses
    -- on the stripped remainder
    all_goals try {
      have hccs : c ∈ cs := by
        rcases List.mem_cons.mp hc with hh | hh
        · exact absurd hh (by
            first
            | exact hne1 | exact hne2 | exact hne3
            | exact hne4 | exact hne5 | exact hne6)
        · exact hh
      have hfail := ih (stripWhitespace cs) none hlstrip (mem_strip_of_mem hccs hwc)
      first
      | -- negation: no accumulator check
        cases hres : parseGoF m f (stripWhitespace cs) none with
        | error e => rfl
        | ok r => rw [hres] at hfail; simp [isFailure] at hfail
      | -- binary connective: empty accumulator already panics
        cases cur with
        | none => rfl
        | some l =>
          cases hres : parseGoF m f (stripWhitespace cs) none with
          | error e => rfl
          | ok r => rw [hres] at hfail; simp [isFailure] at hfail }
    -- opening parenthesis: the unbound atom is either in the captured
    -- group or in the remainder after the matching close paren
    all_goals try {
      have hccs : c ∈ cs := by
        rcases List.mem_cons.mp hc with hh | hh
        · exact absurd hh hne6
        · exact hh
      rcases hsp : scanParen cs 1 [] with ⟨group, rest⟩
      have hmem := scanParen_mem hne7 cs 1 [] Nat.one_pos hccs
      have hlen2 := scanParen_len cs 1 []
      rw [hsp] at hmem hlen2
      simp only [List.length_nil, Nat.zero_add] at hlen2
      rcases hmem with hg | hr
      · have hfail := ih (stripWhitespace group) none
          (le_trans (strip_length_le group) (le_trans hlen2.1 hlcs))
          (mem_strip_of_mem hg hwc)
        cases hres : parseGoF m f (stripWhitespace group) none with
        | error e => rfl
        | ok r => rw [hres] at hfail; simp [isFailure] at hfail
      · cases hres : parseGoF m f (stripWhitespace group) none with
        | error e => rfl
        | ok r => exact ih rest _ (le_trans hlen2.2 hlcs) hr }
    -- invalid character
    rfl

lemma buildAtomMap_cons_ok {seg : List Char} {nc vc : Char}
    (hn : segAtomName seg = some nc) (hv : segAtomValue seg = some vc)
    (rest : List (List Char)) (m : AtomMap) :
    buildAtomMap (seg :: rest) m = buildAtomMap rest (m.insert nc vc) := by
  unfold segAtomName at hn
  unfold segAtomValue at hv
  rcases hsp : splitOnChar '=' seg with _ | ⟨n, _ | ⟨v, t⟩⟩ <;>
    rw [hsp] at hn hv <;> simp only [] at hn hv
  · cases hn
  · cases hn
  · conv_lhs => unfold buildAtomMap
    rw [hsp]
    simp only [hn, hv]

lemma buildAtomMap_skip {c : Char} : ∀ (segs : List (List Char)) (m mf : AtomMap),
    buildAtomMap segs m = .ok mf → (∀ s ∈ segs, segAtomName s ≠ some c) →
    mf c = m c := by
  intro segs
  induction segs with
  | nil =>
    intro m mf h _
    unfold buildAtomMap at h
    cases h
    rfl
  | cons seg rest ih =>
    intro m mf h hn
    unfold buildAtomMap at h
    rcases hsp : splitOnChar '=' seg with _ | ⟨n, _ | ⟨v, t⟩⟩ <;> rw [hsp] at h
    · exact Except.noConfusion h
    · exact Except.noConfusion h
    · rcases hh : n.head? with _ | nc
      · simp only [hh] at h
        exact Except.noConfusion h
      · rcases hv2 : v.head? with _ | vc
        · simp only [hh, hv2] at h
          exact Except.noConfusion h
        · simp only [hh, hv2] at h
          have hrec : mf c = (m.insert nc vc) c :=
            ih _ _ h (fun s hs => hn s (List.mem_cons_of_mem _ hs))
          have hnc : nc ≠ c := by
            intro hEq
            subst hEq
            apply hn seg (List.mem_cons_self seg rest)
            unfold segAtomName
            rw [hsp]
            simp only [hh]
          rw [hrec]
          unfold AtomMap.insert
          rw [if_neg (fun hEq => hnc hEq.symm)]

lemma buildAtomMap_total : ∀ (segs : List (List Char)) (m : AtomMap),
    (∀ s ∈ segs, (segAtomName s).isSome ∧ (segAtomValue s).isSome) →
    ∃ mf, buildAtomMap segs m = .ok mf := by
  intro segs
  induction segs with
  | nil => intro m _; exact ⟨m, rfl⟩
  | cons seg rest ih =>
    intro m hwf
    obtain ⟨hn, hv⟩ := hwf seg (List.mem_cons_self seg rest)
    obtain ⟨nc, hnc⟩ := Option.isSome_iff_exists.mp hn
    obtain ⟨vc, hvc⟩ := Option.isSome_iff_exists.mp hv
    rw [buildAtomMap_cons_ok hnc hvc]
    exact ih _ (fun s hs => hwf s (List.mem_cons_of_mem _ hs))

lemma buildAtomMap_cons_fail {seg : List Char}
    (h : segAtomName seg = none ∨ segAtomValue seg = none)
    (rest : List (List Char)) (m : AtomMap) :
    buildAtomMap (seg :: rest) m = .error .unwrapNone := by
  unfold segAtomName at h
  unfold segAtomValue at h
  conv_lhs => unfold buildAtomMap
  rcases hsp : splitOnChar '=' seg with _ | ⟨n, _ | ⟨v, t⟩⟩
  · rfl
  · rfl
  · rw [hsp] at h
    rcases hh : n.head? with _ | nc
    · simp only [hh]
    · rcases hv2 : v.head? with _ | vc
      · simp only [hh, hv2]
      · simp only [hh, hv2] at h
        rcases h with h | h <;> exact Option.noConfusion h

lemma buildAtomMap_append : ∀ (xs ys : List (List Char)) (m : AtomMap),
    buildAtomMap (xs ++ ys) m =
      match buildAtomMap xs m with
      | .ok m1 => buildAtomMap ys m1
      | .error e => .error e := by
  intro xs
  induction xs with
  | nil => intro ys m; rfl
  | cons seg rest ih =>
    intro ys m
    rcases hn : segAtomName seg with _ | nc
    · rw [List.cons_append, buildAtomMap_cons_fail (Or.inl hn) (rest ++ ys) m,
        buildAtomMap_cons_fail (Or.inl hn) rest m]
    · rcases hv : segAtomValue seg with _ | vc
      · rw [List.cons_append, buildAtomMap_cons_fail (Or.inr hv) (rest ++ ys) m,
          buildAtomMap_cons_fail (Or.inr hv) rest m]
      · rw [List.cons_append, buildAtomMap_cons_ok hn hv (rest ++ ys) m,
          buildAtomMap_cons_ok hn hv rest m, ih]
/-- C1: the evaluator matches the standard two-valued truth tables.  For
all booleans `a`, `b` and leaves `l := ofBool a`, `r := ofBool b`,
evaluating `And(l,r)` yields `eval l AND eval r`, `Or(l,r)` yields
`eval l OR eval r`, `IfThen(l,r)` yields `NOT eval l OR eval r`,
`Iff(l,r)` yields `eval l == eval r`, `Not(l)` yields `NOT eval l`, and
the leaves indeed evaluate to `a` and `b`. -/
theorem evaluate_truth_tables (a b : Bool) :
    evaluate (.Connective (.And (ofBool a) (ofBool b))) = (evaluate (ofBool a) && evaluate (ofBool b)) ∧
    evaluate (.Connective (.Or (ofBool a) (ofBool b))) = (evaluate (ofBool a) || evaluate (ofBool b)) ∧
    evaluate (.Connective (.IfThen (ofBool a) (ofBool b))) = (!evaluate (ofBool a) || evaluate (ofBool b)) ∧
    evaluate (.Connective (.Iff (ofBool a) (ofBool b))) = (evaluate (ofBool a) == evaluate (ofBool b)) ∧
    evaluate (.Connective (.Not (ofBool a))) = (!evaluate (ofBool a)) ∧
    evaluate (ofBool a) = a ∧ evaluate (ofBool b) = b := by
  cases a <;> cases b <;> exact ⟨rfl, rfl, rfl, rfl, rfl, rfl, rfl⟩

/-- C5: the modal operators are placeholder pass-throughs: for every
proposition `p`, `Possibly p` and `Necessarily p` evaluate exactly as `p`
does. -/
theorem modal_ops_passthrough (p : Proposition) :
    evaluate (.Connective (.Possibly p)) = evaluate p ∧
    evaluate (.Connective (.Necessarily p)) = evaluate p :=
  ⟨rfl, rfl⟩

/-- C5 witness at a concrete proposition. -/
theorem modal_ops_passthrough_witness :
    evaluate (.Connective (.Possibly (.Atom .True))) = evaluate (.Atom .True) ∧
    evaluate (.Connective (.Necessarily (.Atom .True))) = evaluate (.Atom .True) :=
  modal_ops_passthrough (.Atom .True)

/-- C6: the `Parenthesised` wrapper is semantically transparent: for every
proposition `x`, `Parenthesised x` evaluates exactly as `x` does. -/
theorem parenthesised_transparent (x : Proposition) :
    evaluate (.Parenthesised x) = evaluate x :=
  rfl

/-- C6 witness at a concrete proposition. -/
theorem parenthesised_transparent_witness :
    evaluate (.Parenthesised (.Atom .False)) = evaluate (.Atom .False) :=
  parenthesised_transparent (.Atom .False)

/-- C7: the top-level entry point evaluates the literal input
`"P ∧ Q;P=T,Q=F"` to `false` and the literal input `"¬(P ∨ Q);P=F,Q=F"`
to `true`. -/
theorem literal_roundtrip_examples :
    evaluate_propositional_string (String.toList "P ∧ Q;P=T,Q=F") = .ok false ∧
    evaluate_propositional_string (String.toList "¬(P ∨ Q);P=F,Q=F") = .ok true :=
  ⟨rfl, rfl⟩

/-- C8: all whitespace is stripped before splitting and parsing, so two
inputs that agree after whitespace removal parse to the same AST and
evaluate to the same result. -/
theorem whitespace_insensitive (s1 s2 : List Char)
    (h : stripWhitespace s1 = stripWhitespace s2) :
    parse_proposition_string s1 = parse_proposition_string s2 ∧
    evaluate_propositional_string s1 = evaluate_propositional_string s2 := by
  have hp : parse_proposition_string s1 = parse_proposition_string s2 := by
    unfold parse_proposition_string
    rw [h]
  refine ⟨hp, ?_⟩
  unfold evaluate_propositional_string
  rw [hp]

/-- C8 witness: the spec's concrete pair of inputs differing only in
whitespace. -/
theorem whitespace_insensitive_witness :
    stripWhitespace (String.toList "P∧Q;P=T,Q=F") =
      stripWhitespace (String.toList "P ∧ Q ; P = T , Q = F") ∧
    (parse_proposition_string (String.toList "P∧Q;P=T,Q=F") =
      parse_proposition_string (String.toList "P ∧ Q ; P = T , Q = F") ∧
     evaluate_propositional_string (String.toList "P∧Q;P=T,Q=F") =
      evaluate_propositional_string (String.toList "P ∧ Q ; P = T , Q = F")) :=
  ⟨rfl, whitespace_insensitive (String.toList "P∧Q;P=T,Q=F")
    (String.toList "P ∧ Q ; P = T , Q = F") rfl⟩

/-- C2: a binary connective takes the entire remainder of the input as its
right operand, so `A op1 B op2 C` parses right-associated as
`op1(A, op2(B, C))`, with no precedence distinction among the four binary
connectives. -/
theorem binary_connective_right_assoc :
    (∀ (o : Char), o ∈ binChars →
      ∀ (m : AtomMap) (n : Nat) (cs : List Char) (l : Proposition),
      parseGoF m (n + 1) (o :: cs) (some l) =
        match parseGoF m n (stripWhitespace cs) none with
        | .ok r => .ok (mkBin o l r)
        | .error e => .error e) ∧
    (∀ (a o1 b o2 c : Char) (va vb vc : Bool) (m : AtomMap),
      a ∈ atomChars → b ∈ atomChars → c ∈ atomChars →
      o1 ∈ binChars → o2 ∈ binChars →
      AtomMap.get m a = some (tok va) →
      AtomMap.get m b = some (tok vb) →
      AtomMap.get m c = some (tok vc) →
      parse_proposition [a, o1, b, o2, c] m =
        .ok (mkBin o1 (ofBool va) (mkBin o2 (ofBool vb) (ofBool vc)))) := by
  constructor
  · intro o ho m n cs l
    exact bin_step ho m n cs l
  · intro a o1 b o2 c va vb vc m ha hb hcc ho1 ho2 hma hmb hmc
    have hsa := atom_not_ws ha
    have hsb := atom_not_ws hb
    have hsc := atom_not_ws hcc
    have hso1 := bin_not_ws ho1
    have hso2 := bin_not_ws ho2
    have hstrip5 : stripWhitespace [a, o1, b, o2, c] = [a, o1, b, o2, c] := by
      simp [stripWhitespace, List.filter_cons, hsa, hsb, hsc, hso1, hso2]
    have hstrip3 : stripWhitespace [b, o2, c] = [b, o2, c] := by
      simp [stripWhitespace, List.filter_cons, hsb, hsc, hso2]
    have hstrip1 : stripWhitespace [c] = [c] := by
      simp [stripWhitespace, List.filter_cons, hsc]
    have inner1 : parseGoF m 1 [c] none = .ok (ofBool vc) := by
      show parseGoF m (0 + 1) [c] none = .ok (ofBool vc)
      rw [atom_step hcc hmc 0 [] none]
      rfl
    have inner3 : parseGoF m 3 [b, o2, c] none =
        .ok (mkBin o2 (ofBool vb) (ofBool vc)) := by
      show parseGoF m (2 + 1) (b :: [o2, c]) none = _
      rw [atom_step hb hmb 2 [o2, c] none]
      show parseGoF m (1 + 1) (o2 :: [c]) (some (ofBool vb)) = _
      rw [bin_step ho2 m 1 [c] (ofBool vb), hstrip1, inner1]
    have h0 : parse_proposition [a, o1, b, o2, c] m =
        parseGoF m 5 [a, o1, b, o2, c] none := by
      unfold parse_proposition
      rw [hstrip5]
      rfl
    rw [h0]
    show parseGoF m (4 + 1) (a :: [o1, b, o2, c]) none = _
    rw [atom_step ha hma 4 [o1, b, o2, c] none]
    show parseGoF m (3 + 1) (o1 :: [b, o2, c]) (some (ofBool va)) = _
    rw [bin_step ho1 m 3 [b, o2, c] (ofBool va), hstrip3, inner3]

/-- C2 witness: `P ∧ Q ∨ P` with `P=T`, `Q=F` parses as `P ∧ (Q ∨ P)`. -/
theorem binary_connective_right_assoc_witness :
    ('P' ∈ atomChars ∧ 'Q' ∈ atomChars ∧ '∧' ∈ binChars ∧ '∨' ∈ binChars ∧
      AtomMap.get mapPQ 'P' = some (tok true) ∧
      AtomMap.get mapPQ 'Q' = some (tok false)) ∧
    parse_proposition ['P', '∧', 'Q', '∨', 'P'] mapPQ =
      .ok (mkBin '∧' (ofBool true) (mkBin '∨' (ofBool false) (ofBool true))) :=
  ⟨⟨by decide, by decide, by decide, by decide, rfl, rfl⟩,
    binary_connective_right_assoc.2 'P' '∧' 'Q' '∨' 'P' true false true mapPQ
      (by decide) (by decide) (by decide) (by decide) (by decide) rfl rfl rfl⟩

/-- C3 counterexample: on input `"P;Q=T"`, whose formula references the
atom `P` absent from the assignment list, the top-level call does not
return a structured `UnknownAtom` error — the reference code panics
(`unwrap` on the `None` returned by the atom-map lookup), modelled here as
the `unwrapNone` error value. -/
theorem unknown_atom_panics_cex :
    evaluate_propositional_string (String.toList "P;Q=T") = .error .unwrapNone :=
  rfl

/-- C3 (amended): for every input whose formula references an atom
identifier absent from the built atom map, the top-level call fails — in
the reference code, by a panic (the `unwrap` at the atom-map lookup, or an
earlier panic), modelled as an error value.  It never yields a boolean and
never silently substitutes a default truth value. -/
theorem unknown_atom_aborts (s f a : List Char) (t : List (List Char))
    (c : Char) (m : AtomMap)
    (hsplit : splitOnChar ';' (stripWhitespace s) = f :: a :: t)
    (hmap : buildAtomMap (splitOnChar ',' a) AtomMap.empty = .ok m)
    (hcf : c ∈ f) (hatom : c ∈ atomChars) (hnone : AtomMap.get m c = none) :
    ∃ e, evaluate_propositional_string s = .error e := by
  have hpp : isFailure (parse_proposition f m) = true :=
    unbound_atom_failure hatom hnone (stripWhitespace f).length
      (stripWhitespace f) none (le_refl _)
      (mem_strip_of_mem hcf (atom_not_ws hatom))
  rcases (isFailure_iff _).mp hpp with ⟨e, he⟩
  refine ⟨e, ?_⟩
  unfold evaluate_propositional_string parse_proposition_string
  rw [hsplit]
  simp only [hmap, he]

/-- C3 witness at the concrete input `"P;Q=T"`. -/
theorem unknown_atom_aborts_witness :
    ∃ e, evaluate_propositional_string (String.toList "P;Q=T") = .error e :=
  unknown_atom_aborts (String.toList "P;Q=T") ['P'] ['Q', '=', 'T'] [] 'P'
    (AtomMap.empty.insert 'Q' 'T') rfl rfl (by decide) (by decide) rfl

/-- C4 counterexample: the formula `"(P"` has an opening parenthesis that
is never matched (the nesting counter never returns to zero), yet parsing
succeeds and produces a `Proposition` tree instead of failing with an
`UnmatchedParenthesis` error. -/
theorem unmatched_paren_no_error_cex :
    parse_proposition (String.toList "(P") mapPQ =
      .ok (.Parenthesised (.Atom .True)) :=
  rfl

/-- C4 (amended): an unmatched opening parenthesis is not detected as an
error.  When the nesting counter never returns to zero before the end of
input, the scan silently treats the entire remainder of the input as the
group contents, so parsing succeeds exactly when that remainder parses,
with the result wrapped in `Parenthesised`. -/
theorem unmatched_paren_wraps_rest (cs : List Char) (m : AtomMap)
    (h : parenNeverCloses (stripWhitespace cs) 1 = true) :
    parse_proposition ('(' :: cs) m =
      Except.map Proposition.Parenthesised (parse_proposition cs m) := by
  have hopen : rustIsWhitespace '(' = false := by decide
  unfold parse_proposition
  rw [strip_cons_of_not_ws hopen]
  show parseGoF m ((stripWhitespace cs).length + 1) ('(' :: stripWhitespace cs) none = _
  simp only [parseGoF]
  rw [scanParen_never_closes h []]
  simp only [List.reverse_nil, List.nil_append, strip_idem]
  cases hx : parseGoF m (stripWhitespace cs).length (stripWhitespace cs) none with
  | ok p =>
    show parseGoF m (stripWhitespace cs).length [] (some (.Parenthesised p)) =
      Except.map Proposition.Parenthesised (Except.ok p)
    rw [parseGoF_nil_some]
    rfl
  | error e => rfl

/-- C4 witness: in `"((P)"` the leading parenthesis is never matched (the
counter climbs to 2 and only falls back to 1), and the parse is the parse
of `"(P)"` wrapped in `Parenthesised`. -/
theorem unmatched_paren_wraps_rest_witness :
    parenNeverCloses (stripWhitespace ['(', 'P', ')']) 1 = true ∧
    parse_proposition ['(', '(', 'P', ')'] mapPQ =
      Except.map Proposition.Parenthesised (parse_proposition ['(', 'P', ')'] mapPQ) :=
  ⟨rfl, unmatched_paren_wraps_rest ['(', 'P', ')'] mapPQ rfl⟩

/-- C9: when the assignment list binds the same atom identifier more than
once, building the atom map succeeds with no error for the duplicates, and
the identifier maps to the truth token of its last occurrence
(last-write-wins). -/
theorem duplicate_assignment_last_wins
    (segs1 segs2 : List (List Char)) (seg : List Char) (m0 : AtomMap)
    (c v : Char)
    (hwf : ∀ s ∈ segs1 ++ seg :: segs2,
      (segAtomName s).isSome ∧ (segAtomValue s).isSome)
    (hname : segAtomName seg = some c) (hvalue : segAtomValue seg = some v)
    (hlast : ∀ s ∈ segs2, segAtomName s ≠ some c) :
    ∃ mf, buildAtomMap (segs1 ++ seg :: segs2) m0 = .ok mf ∧
      AtomMap.get mf c = some v := by
  obtain ⟨m1, hm1⟩ := buildAtomMap_total segs1 m0
    (fun s hs => hwf s (List.mem_append_left _ hs))
  obtain ⟨mf, hmf⟩ := buildAtomMap_total segs2 (m1.insert c v)
    (fun s hs => hwf s (List.mem_append_right _ (List.mem_cons_of_mem _ hs)))
  refine ⟨mf, ?_, ?_⟩
  · rw [buildAtomMap_append, hm1]
    show buildAtomMap (seg :: segs2) m1 = .ok mf
    rw [buildAtomMap_cons_ok hname hvalue]
    exact hmf
  · show mf c = some v
    rw [buildAtomMap_skip segs2 _ mf hmf hlast]
    unfold AtomMap.insert
    simp

/-- C9 witness: `"P=T,P=F"` builds a map sending `P` to `F`. -/
theorem duplicate_assignment_last_wins_witness :
    ∃ mf, buildAtomMap (splitOnChar ',' (String.toList "P=T,P=F")) AtomMap.empty = .ok mf ∧
      AtomMap.get mf 'P' = some 'F' :=
  duplicate_assignment_last_wins [['P', '=', 'T']] [] ['P', '=', 'F']
    AtomMap.empty 'P' 'F' (by decide) rfl rfl (by decide)

/-- C10: when the scan meets a fresh atom, `¬`, or `(` while its
accumulator already holds a proposition, the accumulated proposition is
silently discarded (the result does not depend on the accumulator), and in
particular `"PQ"` with `P=T,Q=F` parses to the atom for `Q` (evaluating
`false`) and `"P¬Q"` parses to `¬Q` with the leading `P` dropped. -/
theorem accumulator_discarded :
    (∀ (m : AtomMap) (fuel : Nat) (c : Char) (cs : List Char)
      (cur : Option Proposition),
      c ∈ atomChars ∨ c = '¬' ∨ c = '(' →
      parseGoF m (fuel + 1) (c :: cs) cur = parseGoF m (fuel + 1) (c :: cs) none) ∧
    parse_proposition (String.toList "PQ") mapPQ = .ok (.Atom .False) ∧
    evaluate (.Atom .False) = false ∧
    parse_proposition (String.toList "P¬Q") mapPQ =
      .ok (.Connective (.Not (.Atom .False))) := by
  refine ⟨?_, rfl, rfl, rfl⟩
  intro m fuel c cs cur h
  rcases h with h | h | h
  · simp only [atomChars, List.mem_cons, List.not_mem_nil, or_false] at h
    rcases h with h | h | h | h | h <;> subst h <;> rfl
  · subst h; rfl
  · subst h; rfl

/-- C10 witness: a pending accumulator is discarded by `¬`. -/
theorem accumulator_discarded_witness :
    ('¬' ∈ atomChars ∨ '¬' = '¬' ∨ '¬' = '(') ∧
    parseGoF mapPQ 2 ['¬', 'P'] (some (.Atom .False)) =
      parseGoF mapPQ 2 ['¬', 'P'] none :=
  ⟨Or.inr (Or.inl rfl),
    accumulator_discarded.1 mapPQ 1 '¬' ['P'] (some (.Atom .False))
      (Or.inr (Or.inl rfl))⟩

end ModalLogic
